import Mathlib

/-!
Missionaries and Cannibals: randomized-frontier search.

A shallow embedding of `main.go`: the river-bank data model, the validity
predicate, the transition function, the frontier insertion routine and the
search loop `nonDeterminism`, followed by theorems about them.

Modelling conventions.
* Go `int` is `Int`. Every count that occurs in a run of the program lies
  between -2 and 5, so no machine-word bound is ever approached there.
  `stateTransition64` is the transition function with the wrap-around of a
  64-bit `int` written out; it returns the same pair as `stateTransition` at
  every configuration a run can hold, and it decides what is said about
  arbitrary counts and overflow.
* The package-level slice `q` is passed explicitly and returned.
* The map `history` stores only the value `true`; it is the list of its keys,
  most recently added first. A lookup of an absent key gives `false`.
* `r1.Intn(n)` returns some number in `[0, n)`. The generator is a stream
  `rng : Nat → Nat` of raw draws; the k-th call returns `rng k % n`.
* The `for len(q) != 0` loop is run with fuel: one unit per iteration.
* Printing and the wait for a keypress have no effect on `q` or `history`
  and are left out.
-/

namespace MC

/-- River side: `m` missionaries and `c` cannibals. -/
structure RiverSide where
  m : Int
  c : Int
  deriving DecidableEq, Repr

/-- State: both river sides and the bank where the boat is berthed. -/
structure State where
  left : RiverSide
  right : RiverSide
  boat : String
  deriving DecidableEq, Repr

/-- Operator: the persons boarding the boat. -/
structure Operator where
  m : Int
  c : Int
  deriving DecidableEq, Repr

/-- The initial state: everybody and the boat on the left side. -/
def initialState : State :=
  { left := ⟨3, 3⟩, right := ⟨0, 0⟩, boat := "left" }

/-- The goal state: everybody and the boat on the right side. -/
def goalState : State :=
  { left := ⟨0, 0⟩, right := ⟨3, 3⟩, boat := "right" }

/-- The selectable boat loads, in the order of the Go array. -/
def Operators : List Operator :=
  [⟨2, 0⟩, ⟨1, 0⟩, ⟨1, 1⟩, ⟨0, 1⟩, ⟨0, 2⟩]

/-- The validator `valid`: a `switch` whose first matching case decides. -/
def valid (state : State) : Bool :=
  if state.left.m < 0 ∨ state.left.c < 0 ∨ state.right.m < 0 ∨ state.right.c < 0 then
    false
  else if state.left.m > 0 ∧ state.left.c > state.left.m then
    false
  else if state.right.m > 0 ∧ state.right.c > state.right.m then
    false
  else
    true

/-- The transition function `stateTransition`: returns `(nextState, ok)`. -/
def stateTransition (currentState : State) (op : Operator) : State × Bool :=
  let nextState : State :=
    if currentState.boat = "left" then
      { boat := "right",
        right := ⟨currentState.right.m + op.m, currentState.right.c + op.c⟩,
        left := ⟨currentState.left.m - op.m, currentState.left.c - op.c⟩ }
    else
      { boat := "left",
        left := ⟨currentState.left.m + op.m, currentState.left.c + op.c⟩,
        right := ⟨currentState.right.m - op.m, currentState.right.c - op.c⟩ }
  (nextState, valid nextState)

/-- First loop of `insert`: walk `q` with a running index, sending entries whose
index is below `i` to `h1` and the others to `h2`. -/
def insertSplit (i : Int) : List State → Int → List State → List State →
    List State × List State
  | [], _, h1, h2 => (h1, h2)
  | value :: rest, index, h1, h2 =>
    if index < i then insertSplit i rest (index + 1) (h1 ++ [value]) h2
    else insertSplit i rest (index + 1) h1 (h2 ++ [value])

/-- The routine `insert`: the new frontier is `append(h1, s)` followed by the
entries of `h2`, appended one at a time. -/
def insert (i : Int) (s : State) (q : List State) : List State :=
  let h := insertSplit i q 0 [] []
  h.2.foldl (fun acc value => acc ++ [value]) (h.1 ++ [s])

/-- Lookup `history[s]` in the visited map. -/
def historyGet (history : List State) (s : State) : Bool :=
  decide (s ∈ history)

/-- Contract of `Intn(n)` for `n > 0`: a number in `[0, n)` taken from the raw draw. -/
def Intn (raw n : Nat) : Nat :=
  raw % n

/-- The mutable data of a search: the frontier `q`, the visited map `history`,
the number of random draws made so far, and (ghost) the arguments of all calls
of `insert` so far, latest first. -/
structure Search where
  q : List State
  history : List State
  draws : Nat
  inserted : List State

/-- Body of the `for _, op := range Operators` loop for one operator. -/
def expandStep (rng : Nat → Nat) (s : State) (st : Search) (op : Operator) : Search :=
  let r := stateTransition s op
  if r.2 then
    if !(historyGet st.history r.1) then
      let i := Intn (rng st.draws) (st.q.length + 1)
      { q := insert (Int.ofNat i) r.1 st.q,
        history := r.1 :: st.history,
        draws := st.draws + 1,
        inserted := r.1 :: st.inserted }
    else st
  else st

/-- Outcome of one pass through the loop: the function returns, or the loop
goes on with new data. -/
inductive Step where
  | done (b : Bool)
  | next (st : Search)

/-- One pass through `for len(q) != 0`: exit test, dequeue, goal test, expansion. -/
def iteration (goal : State) (rng : Nat → Nat) (st : Search) : Step :=
  match st.q with
  | [] => Step.done false
  | s :: rest =>
    if s = goal then Step.done true
    else Step.next (Operators.foldl (expandStep rng s) { st with q := rest })

/-- The search loop with at most `fuel` passes; `none` when the fuel runs out. -/
def searchLoop (goal : State) (rng : Nat → Nat) : Nat → Search → Option Bool
  | 0, _ => none
  | fuel + 1, st =>
    match iteration goal rng st with
    | Step.done b => some b
    | Step.next st' => searchLoop goal rng fuel st'

/-- Data at entry of `nonDeterminism`: the given frontier and `history = {initialState: true}`. -/
def startSearch (q : List State) : Search :=
  { q := q, history := [initialState], draws := 0, inserted := [] }

/-- The function `nonDeterminism` with the goal as a parameter. -/
def nonDeterminismWith (goal : State) (rng : Nat → Nat) (fuel : Nat) (q : List State) :
    Option Bool :=
  searchLoop goal rng fuel (startSearch q)

/-- The function `nonDeterminism`: the goal is `goalState`. -/
def nonDeterminism (rng : Nat → Nat) (fuel : Nat) (q : List State) : Option Bool :=
  nonDeterminismWith goalState rng fuel q

/-- The program entry `main`: append `initialState` to the empty frontier and search. -/
def main (rng : Nat → Nat) (fuel : Nat) : Option Bool :=
  nonDeterminism rng fuel ([] ++ [initialState])

/-- Data at the head of the loop after `n` complete passes, if the loop has
not been left before. -/
def loopHead (goal : State) (rng : Nat → Nat) (q : List State) : Nat → Option Search
  | 0 => some (startSearch q)
  | n + 1 =>
    match loopHead goal rng q n with
    | none => none
    | some st =>
      match iteration goal rng st with
      | Step.done _ => none
      | Step.next st' => some st'

/-- Data inside pass `n` after the dequeue and the first `j` operators, together
with the dequeued state. -/
def midPoint (goal : State) (rng : Nat → Nat) (q : List State) (n j : Nat) :
    Option (State × Search) :=
  match loopHead goal rng q n with
  | none => none
  | some st =>
    match st.q with
    | [] => none
    | s :: rest =>
      if s = goal then none
      else some (s, (Operators.take j).foldl (expandStep rng s) { st with q := rest })


/-- Apply a sequence of operators from `s`; `none` as soon as one step returns `ok = false`. -/
def chain (s : State) : List Operator → Option State
  | [] => some s
  | op :: ops =>
    if (stateTransition s op).2 then chain (stateTransition s op).1 ops else none

/-- Reachability from `initialState` by zero or more catalog steps that all return `ok = true`. -/
def Reachable (g : State) : Prop :=
  ∃ ops : List Operator, (∀ op ∈ ops, op ∈ Operators) ∧ chain initialState ops = some g

/-- The sixteen configurations reachable from `initialState`. -/
def reachList : List State :=
  [ ⟨⟨3, 3⟩, ⟨0, 0⟩, "left"⟩, ⟨⟨2, 2⟩, ⟨1, 1⟩, "right"⟩, ⟨⟨3, 2⟩, ⟨0, 1⟩, "right"⟩,
    ⟨⟨3, 1⟩, ⟨0, 2⟩, "right"⟩, ⟨⟨3, 2⟩, ⟨0, 1⟩, "left"⟩, ⟨⟨3, 0⟩, ⟨0, 3⟩, "right"⟩,
    ⟨⟨3, 1⟩, ⟨0, 2⟩, "left"⟩, ⟨⟨1, 1⟩, ⟨2, 2⟩, "right"⟩, ⟨⟨2, 2⟩, ⟨1, 1⟩, "left"⟩,
    ⟨⟨0, 2⟩, ⟨3, 1⟩, "right"⟩, ⟨⟨0, 3⟩, ⟨3, 0⟩, "left"⟩, ⟨⟨0, 1⟩, ⟨3, 2⟩, "right"⟩,
    ⟨⟨1, 1⟩, ⟨2, 2⟩, "left"⟩, ⟨⟨0, 2⟩, ⟨3, 1⟩, "left"⟩, ⟨⟨0, 0⟩, ⟨3, 3⟩, "right"⟩,
    ⟨⟨0, 1⟩, ⟨3, 2⟩, "left"⟩ ]

/-- Invariant of the search data at every point of a run. -/
structure Inv (st : Search) : Prop where
  q_sub : ∀ x ∈ st.q, x ∈ st.history
  q_nodup : st.q.Nodup
  hist_nodup : st.history.Nodup
  hist_eq : st.history = st.inserted ++ [initialState]
  hist_reach : ∀ x ∈ st.history, Reachable x

/-- Every visited configuration that has left the frontier is not the goal and has
all its legal successors visited. -/
def Closed (goal : State) (st : Search) : Prop :=
  ∀ x ∈ st.history, x ∉ st.q →
    x ≠ goal ∧ ∀ op ∈ Operators, (stateTransition x op).2 = true →
      (stateTransition x op).1 ∈ st.history

/-- What an expansion may do to the data: nothing is removed, every new visited
configuration enters the frontier together with it, and nothing visited before
enters the frontier. -/
structure Grow (st st' : Search) : Prop where
  hist_mono : ∀ x ∈ st.history, x ∈ st'.history
  q_mono : ∀ x ∈ st.q, x ∈ st'.q
  new_in_q : ∀ x ∈ st'.history, x ∈ st.history ∨ x ∈ st'.q
  q_new : ∀ x ∈ st'.q, x ∈ st.q ∨ x ∉ st.history
  len : st'.history.length + st.q.length = st.history.length + st'.q.length

/-- The data `st` occurs in the run: at the head of the loop after some number of
passes, or inside a pass after the dequeue and some number of operators. -/
def atPoint (goal : State) (rng : Nat → Nat) (q : List State) (st : Search) : Prop :=
  (∃ n, loopHead goal rng q n = some st) ∨ (∃ n j s, midPoint goal rng q n j = some (s, st))

/-- The configuration that pass `n` of the loop dequeues, if the loop gets that far. -/
def dequeuedAt (goal : State) (rng : Nat → Nat) (q : List State) (n : Nat) : Option State :=
  match loopHead goal rng q n with
  | none => none
  | some st => st.q.head?

/-- The data at the head of the loop after the first pass when every raw draw is 0:
the three legal successors of the initial state, each inserted at index 0. -/
def firstPass : Search :=
  { q := [⟨⟨3, 1⟩, ⟨0, 2⟩, "right"⟩, ⟨⟨3, 2⟩, ⟨0, 1⟩, "right"⟩, ⟨⟨2, 2⟩, ⟨1, 1⟩, "right"⟩],
    history := [⟨⟨3, 1⟩, ⟨0, 2⟩, "right"⟩, ⟨⟨3, 2⟩, ⟨0, 1⟩, "right"⟩,
      ⟨⟨2, 2⟩, ⟨1, 1⟩, "right"⟩, initialState],
    draws := 3,
    inserted := [⟨⟨3, 1⟩, ⟨0, 2⟩, "right"⟩, ⟨⟨3, 2⟩, ⟨0, 1⟩, "right"⟩,
      ⟨⟨2, 2⟩, ⟨1, 1⟩, "right"⟩] }

/-- The operators of the catalog that give a legal successor of `s` not in `history`. -/
def newSuccessors (s : State) (history : List State) : List Operator :=
  Operators.filter (fun op =>
    (stateTransition s op).2 && !(historyGet history (stateTransition s op).1))

/-- The configurations reached from those of `l` by one legal catalog step. -/
def layerStep (l : List State) : List State :=
  (l.flatMap (fun s => Operators.filterMap (fun op =>
    if (stateTransition s op).2 then some (stateTransition s op).1 else none))).dedup

/-- The configurations reached from `initialState` by exactly `k` legal catalog steps. -/
def layer : Nat → List State
  | 0 => [initialState]
  | k + 1 => layerStep (layer k)

/-- Reachability from `initialState` by at most `n` legal catalog steps. -/
def ReachWithin (n : Nat) (g : State) : Prop :=
  ∃ ops : List Operator, ops.length ≤ n ∧ (∀ op ∈ ops, op ∈ Operators) ∧
    chain initialState ops = some g

/-- The classical solution: eleven boat loads. -/
def solution : List Operator :=
  [⟨0, 2⟩, ⟨0, 1⟩, ⟨0, 2⟩, ⟨0, 1⟩, ⟨2, 0⟩, ⟨1, 1⟩, ⟨2, 0⟩, ⟨0, 1⟩, ⟨0, 2⟩, ⟨0, 1⟩, ⟨0, 2⟩]

/-- A stream of raw draws under which the second pass ends with a dead end at the head. -/
def deadEndDraws (k : Nat) : Nat :=
  if k = 1 then 1 else if k = 3 then 2 else 0

/-- The data at the head of the loop after two passes under `deadEndDraws`: both legal
successors of the head ((2,2),(1,1),right) are already in the visited map. -/
def deadEnd : Search :=
  { q := [⟨⟨2, 2⟩, ⟨1, 1⟩, "right"⟩, ⟨⟨3, 2⟩, ⟨0, 1⟩, "right"⟩, ⟨⟨3, 2⟩, ⟨0, 1⟩, "left"⟩],
    history := [⟨⟨3, 2⟩, ⟨0, 1⟩, "left"⟩, ⟨⟨3, 1⟩, ⟨0, 2⟩, "right"⟩,
      ⟨⟨3, 2⟩, ⟨0, 1⟩, "right"⟩, ⟨⟨2, 2⟩, ⟨1, 1⟩, "right"⟩, initialState],
    draws := 4,
    inserted := [⟨⟨3, 2⟩, ⟨0, 1⟩, "left"⟩, ⟨⟨3, 1⟩, ⟨0, 2⟩, "right"⟩,
      ⟨⟨3, 2⟩, ⟨0, 1⟩, "right"⟩, ⟨⟨2, 2⟩, ⟨1, 1⟩, "right"⟩] }

/-- Go `int` on a 64-bit platform: the two's-complement value of `x`, in
`[-2^63, 2^63)`. -/
def wrap64 (x : Int) : Int :=
  (x + 9223372036854775808) % 18446744073709551616 - 9223372036854775808

/-- The transition function `stateTransition` with the wrap-around of Go's 64-bit `int`
made explicit at every `+` and `-`. -/
def stateTransition64 (currentState : State) (op : Operator) : State × Bool :=
  let nextState : State :=
    if currentState.boat = "left" then
      { boat := "right",
        right := ⟨wrap64 (currentState.right.m + op.m), wrap64 (currentState.right.c + op.c)⟩,
        left := ⟨wrap64 (currentState.left.m - op.m), wrap64 (currentState.left.c - op.c)⟩ }
    else
      { boat := "left",
        left := ⟨wrap64 (currentState.left.m + op.m), wrap64 (currentState.left.c + op.c)⟩,
        right := ⟨wrap64 (currentState.right.m - op.m), wrap64 (currentState.right.c - op.c)⟩ }
  (nextState, valid nextState)

/-- The counts of `s` and `op` are far from the bounds of a 64-bit `int`. -/
def smallCounts (s : State) (op : Operator) : Prop :=
  (-4611686018427387904 ≤ s.left.m ∧ s.left.m < 4611686018427387904) ∧
  (-4611686018427387904 ≤ s.left.c ∧ s.left.c < 4611686018427387904) ∧
  (-4611686018427387904 ≤ s.right.m ∧ s.right.m < 4611686018427387904) ∧
  (-4611686018427387904 ≤ s.right.c ∧ s.right.c < 4611686018427387904) ∧
  (-4611686018427387904 ≤ op.m ∧ op.m < 4611686018427387904) ∧
  (-4611686018427387904 ≤ op.c ∧ op.c < 4611686018427387904)

/-! ## The frontier insertion -/

theorem foldl_append_singleton (l init : List State) :
    l.foldl (fun acc value => acc ++ [value]) init = init ++ l := by
  induction l generalizing init with
  | nil => simp
  | cons a l ih => simp [ih]

theorem insertSplit_eq (i : Int) (q : List State) (index : Int) (h1 h2 : List State) :
    insertSplit i q index h1 h2 =
      (h1 ++ q.take (i - index).toNat, h2 ++ q.drop (i - index).toNat) := by
  induction q generalizing index h1 h2 with
  | nil => simp [insertSplit]
  | cons value rest ih =>
    unfold insertSplit
    by_cases h : index < i
    · have e : (i - index).toNat = (i - (index + 1)).toNat + 1 := by omega
      rw [if_pos h, ih, e]
      simp
    · have e : (i - index).toNat = 0 := by omega
      have e' : (i - (index + 1)).toNat = 0 := by omega
      rw [if_neg h, ih, e, e']
      simp

theorem insert_eq (i : Int) (s : State) (q : List State) :
    insert i s q = q.take i.toNat ++ s :: q.drop i.toNat := by
  simp [insert, insertSplit_eq, foldl_append_singleton]

theorem mem_insert (i : Int) (s x : State) (q : List State) :
    x ∈ insert i s q ↔ x = s ∨ x ∈ q := by
  rw [insert_eq]
  constructor
  · intro h
    rcases List.mem_append.1 h with h | h
    · exact Or.inr (List.mem_of_mem_take h)
    · rcases List.mem_cons.1 h with h | h
      · exact Or.inl h
      · exact Or.inr (List.mem_of_mem_drop h)
  · intro h
    rcases h with h | h
    · simp [h]
    · have := (List.take_append_drop i.toNat q).symm ▸ h
      rcases List.mem_append.1 this with h | h
      · exact List.mem_append.2 (Or.inl h)
      · exact List.mem_append.2 (Or.inr (List.mem_cons_of_mem _ h))

theorem insert_perm (i : Int) (s : State) (q : List State) :
    List.Perm (insert i s q) (s :: q) := by
  rw [insert_eq]
  have h : List.Perm (q.take i.toNat ++ s :: q.drop i.toNat) (s :: (q.take i.toNat ++ q.drop i.toNat)) :=
    List.perm_middle
  simpa using h

theorem length_insert (i : Int) (s : State) (q : List State) :
    (insert i s q).length = q.length + 1 := by
  simpa using (insert_perm i s q).length_eq

theorem nodup_insert (i : Int) (s : State) (q : List State) :
    (insert i s q).Nodup ↔ s ∉ q ∧ q.Nodup := by
  rw [(insert_perm i s q).nodup_iff, List.nodup_cons]


/-! ## The transition chain -/

theorem chain_append (s : State) (ops : List Operator) (op : Operator) :
    chain s (ops ++ [op]) = (chain s ops).bind (fun t => chain t [op]) := by
  induction ops generalizing s with
  | nil => simp [chain]
  | cons a ops ih =>
    simp only [List.cons_append, chain]
    split
    · exact ih _
    · rfl

theorem chain_invariant (P : State → Prop)
    (hstep : ∀ t op, P t → op ∈ Operators → (stateTransition t op).2 = true →
      P (stateTransition t op).1)
    (ops : List Operator) (s g : State) (hs : P s) (hops : ∀ op ∈ ops, op ∈ Operators)
    (hc : chain s ops = some g) : P g := by
  induction ops generalizing s with
  | nil =>
    simp [chain] at hc
    exact hc ▸ hs
  | cons a ops ih =>
    simp only [chain] at hc
    split at hc
    · next hok =>
      exact ih _ (hstep s a hs (hops a (List.mem_cons_self _ _)) hok)
        (fun op h => hops op (List.mem_cons_of_mem _ h)) hc
    · cases hc

theorem reachable_start : Reachable initialState :=
  ⟨[], by simp, rfl⟩

theorem reachable_step {s : State} (hs : Reachable s) {op : Operator} (hop : op ∈ Operators)
    (hok : (stateTransition s op).2 = true) : Reachable (stateTransition s op).1 := by
  obtain ⟨ops, hops, hc⟩ := hs
  refine ⟨ops ++ [op], ?_, ?_⟩
  · intro o ho
    rcases List.mem_append.1 ho with h | h
    · exact hops o h
    · simp at h
      exact h ▸ hop
  · rw [chain_append, hc]
    simp [chain, hok]

theorem reachable_induct (P : State → Prop) (h0 : P initialState)
    (hstep : ∀ t op, P t → op ∈ Operators → (stateTransition t op).2 = true →
      P (stateTransition t op).1) {g : State} (hg : Reachable g) : P g := by
  obtain ⟨ops, hops, hc⟩ := hg
  exact chain_invariant P hstep ops initialState g h0 hops hc

theorem reachList_closed :
    ∀ s ∈ reachList, ∀ op ∈ Operators,
      (stateTransition s op).2 = true → (stateTransition s op).1 ∈ reachList := by
  decide

theorem reachable_mem_reachList {g : State} (hg : Reachable g) : g ∈ reachList :=
  reachable_induct (fun s => s ∈ reachList) (by decide)
    (fun t op ht hop hok => reachList_closed t ht op hop hok) hg

theorem stateTransition_ok (s : State) (op : Operator) :
    (stateTransition s op).2 = valid (stateTransition s op).1 := rfl

theorem reachable_valid {g : State} (hg : Reachable g) : valid g = true :=
  reachable_induct (fun s => valid s = true) (by decide)
    (fun t op _ _ hok => hok) hg

/-! ## One operator of the expansion loop -/

theorem expandStep_cases (rng : Nat → Nat) (s : State) (st : Search) (op : Operator) :
    (expandStep rng s st op = st ∧
        ((stateTransition s op).2 = true → (stateTransition s op).1 ∈ st.history)) ∨
      ((stateTransition s op).2 = true ∧ (stateTransition s op).1 ∉ st.history ∧
        expandStep rng s st op =
          { q := insert (Int.ofNat (Intn (rng st.draws) (st.q.length + 1)))
              (stateTransition s op).1 st.q,
            history := (stateTransition s op).1 :: st.history,
            draws := st.draws + 1,
            inserted := (stateTransition s op).1 :: st.inserted }) := by
  unfold expandStep
  by_cases hok : (stateTransition s op).2 = true
  · by_cases hm : (stateTransition s op).1 ∈ st.history
    · left
      simp [hok, hm, historyGet]
    · right
      simp [hok, hm, historyGet]
  · left
    simp [hok]

theorem inv_start : Inv (startSearch [initialState]) where
  q_sub := by simp [startSearch]
  q_nodup := by simp [startSearch]
  hist_nodup := by simp [startSearch]
  hist_eq := by simp [startSearch]
  hist_reach := by
    intro x hx
    simp [startSearch] at hx
    exact hx ▸ reachable_start

theorem inv_dequeue {st : Search} (h : Inv st) {s : State} {rest : List State}
    (hq : st.q = s :: rest) : Inv { st with q := rest } where
  q_sub := fun x hx => h.q_sub x (hq ▸ List.mem_cons_of_mem _ hx)
  q_nodup := by
    have := h.q_nodup
    rw [hq] at this
    exact (List.nodup_cons.1 this).2
  hist_nodup := h.hist_nodup
  hist_eq := h.hist_eq
  hist_reach := h.hist_reach

theorem inv_expandStep {st : Search} (h : Inv st) (rng : Nat → Nat) {s : State}
    (hs : Reachable s) {op : Operator} (hop : op ∈ Operators) :
    Inv (expandStep rng s st op) := by
  rcases expandStep_cases rng s st op with ⟨e, _⟩ | ⟨hok, hnew, e⟩
  · rw [e]; exact h
  · rw [e]
    refine ⟨?_, ?_, ?_, ?_, ?_⟩
    · intro x hx
      rcases (mem_insert _ _ _ _).1 hx with hx | hx
      · exact hx ▸ List.mem_cons_self _ _
      · exact List.mem_cons_of_mem _ (h.q_sub x hx)
    · exact (nodup_insert _ _ _).2 ⟨fun hm => hnew (h.q_sub _ hm), h.q_nodup⟩
    · exact List.nodup_cons.2 ⟨hnew, h.hist_nodup⟩
    · simp [h.hist_eq]
    · intro x hx
      rcases List.mem_cons.1 hx with hx | hx
      · exact hx ▸ reachable_step hs hop hok
      · exact h.hist_reach x hx

theorem inv_foldl (rng : Nat → Nat) {s : State} (hs : Reachable s) (ops : List Operator)
    (hops : ∀ op ∈ ops, op ∈ Operators) {st : Search} (h : Inv st) :
    Inv (ops.foldl (expandStep rng s) st) := by
  induction ops generalizing st with
  | nil => exact h
  | cons a ops ih =>
    exact ih (fun op ho => hops op (List.mem_cons_of_mem _ ho))
      (inv_expandStep h rng hs (hops a (List.mem_cons_self _ _)))


/-! ## The whole expansion of one dequeued configuration -/

theorem grow_refl (st : Search) : Grow st st :=
  ⟨fun _ h => h, fun _ h => h, fun _ h => Or.inl h, fun _ h => Or.inl h, rfl⟩

theorem grow_trans {a b c : Search} (h1 : Grow a b) (h2 : Grow b c) : Grow a c where
  hist_mono := fun x hx => h2.hist_mono x (h1.hist_mono x hx)
  q_mono := fun x hx => h2.q_mono x (h1.q_mono x hx)
  new_in_q := by
    intro x hx
    rcases h2.new_in_q x hx with h | h
    · rcases h1.new_in_q x h with h | h
      · exact Or.inl h
      · exact Or.inr (h2.q_mono x h)
    · exact Or.inr h
  q_new := by
    intro x hx
    rcases h2.q_new x hx with h | h
    · exact h1.q_new x h
    · exact Or.inr (fun hm => h (h1.hist_mono x hm))
  len := by
    have := h1.len
    have := h2.len
    omega

theorem grow_expandStep (rng : Nat → Nat) (s : State) (st : Search) (op : Operator) :
    Grow st (expandStep rng s st op) := by
  rcases expandStep_cases rng s st op with ⟨e, _⟩ | ⟨_, hnew, e⟩
  · rw [e]; exact grow_refl st
  · rw [e]
    refine ⟨?_, ?_, ?_, ?_, ?_⟩
    · exact fun x hx => List.mem_cons_of_mem _ hx
    · exact fun x hx => (mem_insert _ _ _ _).2 (Or.inr hx)
    · intro x hx
      rcases List.mem_cons.1 hx with hx | hx
      · exact Or.inr ((mem_insert _ _ _ _).2 (Or.inl hx))
      · exact Or.inl hx
    · intro x hx
      rcases (mem_insert _ _ _ _).1 hx with hx | hx
      · exact Or.inr (hx ▸ hnew)
      · exact Or.inl hx
    · simp only [List.length_cons, length_insert]
      omega

theorem grow_foldl (rng : Nat → Nat) (s : State) (ops : List Operator) (st : Search) :
    Grow st (ops.foldl (expandStep rng s) st) := by
  induction ops generalizing st with
  | nil => exact grow_refl st
  | cons a ops ih => exact grow_trans (grow_expandStep rng s st a) (ih _)

theorem foldl_complete (rng : Nat → Nat) (s : State) (ops : List Operator) (st : Search)
    (op : Operator) (hop : op ∈ ops) (hok : (stateTransition s op).2 = true) :
    (stateTransition s op).1 ∈ (ops.foldl (expandStep rng s) st).history := by
  induction ops generalizing st with
  | nil => cases hop
  | cons a ops ih =>
    rcases List.mem_cons.1 hop with h | h
    · subst h
      apply (grow_foldl rng s ops _).hist_mono
      rcases expandStep_cases rng s st op with ⟨e, hm⟩ | ⟨_, _, e⟩
      · rw [e]; exact hm hok
      · rw [e]; exact List.mem_cons_self _ _
    · exact ih _ h

/-! ## The loop -/

theorem iteration_nil (goal : State) (rng : Nat → Nat) (st : Search) (hq : st.q = []) :
    iteration goal rng st = Step.done false := by
  simp [iteration, hq]

theorem iteration_goal (goal : State) (rng : Nat → Nat) (st : Search) (rest : List State)
    (hq : st.q = goal :: rest) : iteration goal rng st = Step.done true := by
  simp [iteration, hq]

theorem iteration_expand (goal : State) (rng : Nat → Nat) (st : Search) (s : State)
    (rest : List State) (hq : st.q = s :: rest) (hs : s ≠ goal) :
    iteration goal rng st =
      Step.next (Operators.foldl (expandStep rng s) { st with q := rest }) := by
  simp [iteration, hq, hs]

theorem iteration_next_iff (goal : State) (rng : Nat → Nat) (st st' : Search) :
    iteration goal rng st = Step.next st' ↔
      ∃ s rest, st.q = s :: rest ∧ s ≠ goal ∧
        st' = Operators.foldl (expandStep rng s) { st with q := rest } := by
  constructor
  · intro h
    cases hq : st.q with
    | nil => rw [iteration_nil goal rng st hq] at h; cases h
    | cons s rest =>
      by_cases hs : s = goal
      · subst hs
        rw [iteration_goal s rng st rest hq] at h; cases h
      · rw [iteration_expand goal rng st s rest hq hs] at h
        injection h with h
        exact ⟨s, rest, rfl, hs, h.symm⟩
  · rintro ⟨s, rest, hq, hs, rfl⟩
    exact iteration_expand goal rng st s rest hq hs

theorem inv_iteration {goal : State} {rng : Nat → Nat} {st st' : Search} (h : Inv st)
    (hit : iteration goal rng st = Step.next st') : Inv st' := by
  obtain ⟨s, rest, hq, _, rfl⟩ := (iteration_next_iff goal rng st st').1 hit
  have hs : Reachable s := h.hist_reach s (h.q_sub s (hq ▸ List.mem_cons_self _ _))
  exact inv_foldl rng hs Operators (fun _ ho => ho) (inv_dequeue h hq)

theorem closed_start (goal : State) : Closed goal (startSearch [initialState]) := by
  intro x hx hnq
  simp only [startSearch, List.mem_singleton] at hx hnq
  exact absurd hx hnq

theorem closed_iteration {goal : State} {rng : Nat → Nat} {st st' : Search}
    (hc : Closed goal st) (hit : iteration goal rng st = Step.next st') : Closed goal st' := by
  obtain ⟨s, rest, hq, hsg, rfl⟩ := (iteration_next_iff goal rng st st').1 hit
  have hg := grow_foldl rng s Operators { st with q := rest }
  intro x hx hnq
  have hxH : x ∈ st.history := by
    rcases hg.new_in_q x hx with h' | h'
    · exact h'
    · exact absurd h' hnq
  have hxrest : x ∉ rest := fun hm => hnq (hg.q_mono x hm)
  by_cases hxs : x = s
  · subst hxs
    exact ⟨hsg, fun op hop hok => foldl_complete rng x Operators _ op hop hok⟩
  · have hxq : x ∉ st.q := by
      rw [hq]
      intro hm
      rcases List.mem_cons.1 hm with h' | h'
      · exact hxs h'
      · exact hxrest h'
    obtain ⟨h1, h2⟩ := hc x hxH hxq
    exact ⟨h1, fun op hop hok => hg.hist_mono _ (h2 op hop hok)⟩

theorem length_iteration {goal : State} {rng : Nat → Nat} {st st' : Search} {n : Nat}
    (hl : st.history.length = st.q.length + n)
    (hit : iteration goal rng st = Step.next st') :
    st'.history.length = st'.q.length + (n + 1) := by
  obtain ⟨s, rest, hq, _, rfl⟩ := (iteration_next_iff goal rng st st').1 hit
  have hg := (grow_foldl rng s Operators { st with q := rest }).len
  rw [hq] at hl
  simp only [List.length_cons] at hl hg
  omega

theorem history_length_le {st : Search} (h : Inv st) : st.history.length ≤ 16 := by
  have hsub : st.history ⊆ reachList := fun x hx => reachable_mem_reachList (h.hist_reach x hx)
  exact (h.hist_nodup.subperm hsub).length_le

theorem closed_nil_not_reachable {goal : State} {st : Search} (h : Inv st)
    (hc : Closed goal st) (hq : st.q = []) : ¬ Reachable goal := by
  intro hr
  have hall : ∀ x, Reachable x → x ∈ st.history := by
    intro x hx
    refine reachable_induct (fun y => y ∈ st.history) ?_ ?_ hx
    · rw [h.hist_eq]; simp
    · intro t op ht hop hok
      exact (hc t ht (by simp [hq])).2 op hop hok
  exact (hc goal (hall goal hr) (by simp [hq])).1 rfl

theorem searchLoop_spec (goal : State) (rng : Nat → Nat) (fuel : Nat) :
    ∀ (n : Nat) (st : Search), Inv st → Closed goal st →
      st.history.length = st.q.length + n → 16 < n + fuel →
      ∃ b, searchLoop goal rng fuel st = some b ∧ (b = true ↔ Reachable goal) := by
  induction fuel with
  | zero =>
    intro n st h _ hl hf
    have := history_length_le h
    omega
  | succ fuel ih =>
    intro n st h hc hl hf
    cases hit : iteration goal rng st with
    | done b =>
      refine ⟨b, by simp [searchLoop, hit], ?_⟩
      cases hq : st.q with
      | nil =>
        rw [iteration_nil goal rng st hq] at hit
        injection hit with hit
        subst hit
        simpa using closed_nil_not_reachable h hc hq
      | cons s rest =>
        by_cases hs : s = goal
        · subst hs
          rw [iteration_goal s rng st rest hq] at hit
          injection hit with hit
          subst hit
          simpa using h.hist_reach s (h.q_sub s (hq ▸ List.mem_cons_self _ _))
        · rw [iteration_expand goal rng st s rest hq hs] at hit
          cases hit
    | next st' =>
      obtain ⟨b, hb, hbr⟩ := ih (n + 1) st' (inv_iteration h hit) (closed_iteration hc hit)
        (length_iteration hl hit) (by omega)
      exact ⟨b, by simp [searchLoop, hit, hb], hbr⟩

theorem nonDeterminismWith_spec (goal : State) (rng : Nat → Nat) (fuel : Nat)
    (hf : 17 ≤ fuel) :
    ∃ b, nonDeterminismWith goal rng fuel [initialState] = some b ∧
      (b = true ↔ Reachable goal) :=
  searchLoop_spec goal rng fuel 0 (startSearch [initialState]) inv_start (closed_start goal)
    (by simp [startSearch]) (by omega)

theorem reachable_goalState : Reachable goalState :=
  ⟨[⟨0, 2⟩, ⟨0, 1⟩, ⟨0, 2⟩, ⟨0, 1⟩, ⟨2, 0⟩, ⟨1, 1⟩, ⟨2, 0⟩, ⟨0, 1⟩, ⟨0, 2⟩, ⟨0, 1⟩, ⟨0, 2⟩],
    by decide, by decide⟩


/-! ## Points of a run -/

theorem loopHead_succ {goal : State} {rng : Nat → Nat} {q : List State} {n : Nat}
    {st' : Search} (h : loopHead goal rng q (n + 1) = some st') :
    ∃ st, loopHead goal rng q n = some st ∧ iteration goal rng st = Step.next st' := by
  simp only [loopHead] at h
  cases hl : loopHead goal rng q n with
  | none => rw [hl] at h; cases h
  | some st =>
    rw [hl] at h
    simp only at h
    cases hit : iteration goal rng st with
    | done b => rw [hit] at h; cases h
    | next st'' =>
      rw [hit] at h
      simp only at h
      injection h with h
      exact ⟨st, rfl, h ▸ hit⟩

/-- Invariants at the head of the loop after `n` passes. -/
theorem loopHead_inv (goal : State) (rng : Nat → Nat) (n : Nat) :
    ∀ st, loopHead goal rng [initialState] n = some st →
      Inv st ∧ Closed goal st ∧ st.history.length = st.q.length + n := by
  induction n with
  | zero =>
    intro st h
    simp only [loopHead] at h
    injection h with h
    subst h
    exact ⟨inv_start, closed_start goal, by simp [startSearch]⟩
  | succ n ih =>
    intro st' h
    obtain ⟨st, hl, hit⟩ := loopHead_succ h
    obtain ⟨h1, h2, h3⟩ := ih st hl
    exact ⟨inv_iteration h1 hit, closed_iteration h2 hit, length_iteration h3 hit⟩

theorem midPoint_inv {goal : State} {rng : Nat → Nat} {n j : Nat} {s : State} {st : Search}
    (h : midPoint goal rng [initialState] n j = some (s, st)) : Inv st := by
  simp only [midPoint] at h
  cases hl : loopHead goal rng [initialState] n with
  | none => rw [hl] at h; cases h
  | some st0 =>
    rw [hl] at h
    simp only at h
    have hinv := (loopHead_inv goal rng n st0 hl).1
    cases hq : st0.q with
    | nil => rw [hq] at h; cases h
    | cons a rest =>
      rw [hq] at h
      simp only at h
      split at h
      · cases h
      · injection h with h
        injection h with h1 h2
        subst h1
        rw [← h2]
        have ha : Reachable a := hinv.hist_reach a (hinv.q_sub a (hq ▸ List.mem_cons_self _ _))
        exact inv_foldl rng ha _ (fun op ho => List.mem_of_mem_take ho) (inv_dequeue hinv hq)

theorem atPoint_inv {goal : State} {rng : Nat → Nat} {st : Search}
    (h : atPoint goal rng [initialState] st) : Inv st := by
  rcases h with ⟨n, h⟩ | ⟨n, j, s, h⟩
  · exact (loopHead_inv goal rng n st h).1
  · exact midPoint_inv h

theorem stateTransition_totals (s : State) (op : Operator) :
    (stateTransition s op).1.left.m + (stateTransition s op).1.right.m = s.left.m + s.right.m ∧
    (stateTransition s op).1.left.c + (stateTransition s op).1.right.c
      = s.left.c + s.right.c := by
  unfold stateTransition
  by_cases h : s.boat = "left"
  · simp only [h, if_true]
    constructor <;> ring
  · simp only [h, if_false]
    constructor <;> ring

theorem reachable_totals {x : State} (hx : Reachable x) :
    x.left.m + x.right.m = 3 ∧ x.left.c + x.right.c = 3 := by
  refine reachable_induct (fun y => y.left.m + y.right.m = 3 ∧ y.left.c + y.right.c = 3)
    (by decide) ?_ hx
  intro t op ht _ _
  have := stateTransition_totals t op
  exact ⟨this.1.trans ht.1, this.2.trans ht.2⟩

/-- Once a configuration is visited and out of the frontier, it stays so. -/
theorem gone_stays {goal : State} {rng : Nat → Nat} {st st' : Search} {a : State}
    (ha : a ∈ st.history) (hq : a ∉ st.q) (hit : iteration goal rng st = Step.next st') :
    a ∈ st'.history ∧ a ∉ st'.q := by
  obtain ⟨s, rest, hs, _, rfl⟩ := (iteration_next_iff goal rng st st').1 hit
  have hg := grow_foldl rng s Operators { st with q := rest }
  refine ⟨hg.hist_mono a ha, fun hm => ?_⟩
  rcases hg.q_new a hm with h | h
  · exact hq (hs ▸ List.mem_cons_of_mem _ h)
  · exact h ha

theorem dequeued_gone {goal : State} {rng : Nat → Nat} {n : Nat} {a : State}
    (hd : dequeuedAt goal rng [initialState] n = some a) (k : Nat) :
    ∀ st', loopHead goal rng [initialState] (n + 1 + k) = some st' →
      a ∈ st'.history ∧ a ∉ st'.q := by
  induction k with
  | zero =>
    intro st' h
    obtain ⟨st, hl, hit⟩ := loopHead_succ h
    simp only [dequeuedAt, hl] at hd
    have hinv := (loopHead_inv goal rng n st hl).1
    obtain ⟨s, rest, hs, _, rfl⟩ := (iteration_next_iff goal rng st st').1 hit
    rw [hs] at hd
    simp only [List.head?_cons] at hd
    injection hd with hd
    subst hd
    have hg := grow_foldl rng s Operators { st with q := rest }
    have hsH : s ∈ st.history := hinv.q_sub s (hs ▸ List.mem_cons_self _ _)
    have hnd := hinv.q_nodup
    rw [hs] at hnd
    refine ⟨hg.hist_mono s hsH, fun hm => ?_⟩
    rcases hg.q_new s hm with h' | h'
    · exact (List.nodup_cons.1 hnd).1 h'
    · exact h' hsH
  | succ k ih =>
    intro st' h
    obtain ⟨st, hl, hit⟩ := loopHead_succ (n := n + 1 + k) h
    obtain ⟨h1, h2⟩ := ih st hl
    exact gone_stays h1 h2 hit

theorem dequeued_distinct {goal : State} {rng : Nat → Nat} {n m : Nat} {a b : State}
    (hnm : n < m) (ha : dequeuedAt goal rng [initialState] n = some a)
    (hb : dequeuedAt goal rng [initialState] m = some b) : a ≠ b := by
  obtain ⟨k, rfl⟩ : ∃ k, m = n + 1 + k := ⟨m - n - 1, by omega⟩
  intro hab
  subst hab
  simp only [dequeuedAt] at hb
  cases hl : loopHead goal rng [initialState] (n + 1 + k) with
  | none => rw [hl] at hb; cases hb
  | some st =>
    rw [hl] at hb
    have := (dequeued_gone ha k st hl).2
    exact this (List.mem_of_mem_head? hb)

theorem loopHead_none_17 (goal : State) (rng : Nat → Nat) :
    loopHead goal rng [initialState] 17 = none := by
  cases h : loopHead goal rng [initialState] 17 with
  | none => rfl
  | some st' =>
    obtain ⟨st, hl, hit⟩ := loopHead_succ h
    obtain ⟨hinv, _, hlen⟩ := loopHead_inv goal rng 16 st hl
    have hle := history_length_le hinv
    have hq : st.q = [] := List.eq_nil_of_length_eq_zero (by omega)
    rw [iteration_nil goal rng st hq] at hit
    cases hit

theorem Intn_le (raw n : Nat) : Intn raw (n + 1) ≤ n :=
  Nat.lt_succ_iff.1 (Nat.mod_lt _ (Nat.succ_pos n))

theorem Intn_self (i n : Nat) (h : i ≤ n) : Intn i (n + 1) = i :=
  Nat.mod_eq_of_lt (Nat.lt_succ_of_le h)


theorem closed_nil_all {goal : State} {st : Search} (h : Inv st)
    (hc : Closed goal st) (hq : st.q = []) : ∀ x, Reachable x → x ∈ st.history := by
  intro x hx
  refine reachable_induct (fun y => y ∈ st.history) ?_ ?_ hx
  · rw [h.hist_eq]; simp
  · intro t op ht hop hok
    exact (hc t ht (by simp [hq])).2 op hop hok

theorem not_reachable_sample : ¬ Reachable ⟨⟨1, 3⟩, ⟨2, 0⟩, "right"⟩ :=
  fun h => absurd (reachable_mem_reachList h) (by decide)

theorem loopHead_firstPass : loopHead goalState (fun _ => 0) [initialState] 1 = some firstPass :=
  rfl

/-! ## The claims -/

/-- C1: on the fixed puzzle, whatever indices are drawn, `nonDeterminism` started with
`q = [initialState]` (as `main` starts it) returns `true` as soon as it is given
17 passes; it returns `false` for no stream of draws. -/
theorem nonDeterminism_found (rng : Nat → Nat) (fuel : Nat) (hf : 17 ≤ fuel) :
    nonDeterminism rng fuel [initialState] = some true ∧ main rng fuel = some true := by
  obtain ⟨b, hb, hbr⟩ := nonDeterminismWith_spec goalState rng fuel hf
  have : b = true := hbr.2 reachable_goalState
  subst this
  exact ⟨hb, hb⟩

theorem nonDeterminism_found_witness :
    17 ≤ 17 ∧ nonDeterminism (fun k => 7 * k + 3) 17 [initialState] = some true :=
  ⟨le_refl 17, (nonDeterminism_found (fun k => 7 * k + 3) 17 (le_refl 17)).1⟩

/-- C2: for every goal `g` and every stream of draws, the search from
`[initialState]` returns `true` when `g` is reachable by legal catalog steps and
`false` when it is not; and when the frontier is empty at the head of the loop,
the visited map holds exactly the reachable configurations and not `g`. -/
theorem nonDeterminismWith_reachable (g : State) (rng : Nat → Nat) (fuel : Nat)
    (hf : 17 ≤ fuel) :
    (Reachable g → nonDeterminismWith g rng fuel [initialState] = some true) ∧
    (¬ Reachable g → nonDeterminismWith g rng fuel [initialState] = some false) ∧
    (∀ n st, loopHead g rng [initialState] n = some st → st.q = [] →
      (∀ x, x ∈ st.history ↔ Reachable x) ∧ g ∉ st.history) := by
  obtain ⟨b, hb, hbr⟩ := nonDeterminismWith_spec g rng fuel hf
  refine ⟨?_, ?_, ?_⟩
  · intro hr
    have : b = true := hbr.2 hr
    subst this
    exact hb
  · intro hr
    have : b = false := by
      cases b with
      | false => rfl
      | true => exact absurd (hbr.1 rfl) hr
    subst this
    exact hb
  · intro n st hl hq
    obtain ⟨hinv, hc, _⟩ := loopHead_inv g rng n st hl
    refine ⟨fun x => ⟨hinv.hist_reach x, closed_nil_all hinv hc hq x⟩, fun hm => ?_⟩
    exact (hc g hm (by simp [hq])).1 rfl

theorem nonDeterminismWith_reachable_witness :
    nonDeterminismWith goalState (fun _ => 0) 17 [initialState] = some true ∧
    nonDeterminismWith ⟨⟨1, 3⟩, ⟨2, 0⟩, "right"⟩ (fun _ => 0) 17 [initialState] = some false :=
  ⟨(nonDeterminismWith_reachable goalState (fun _ => 0) 17 (le_refl 17)).1 reachable_goalState,
   (nonDeterminismWith_reachable ⟨⟨1, 3⟩, ⟨2, 0⟩, "right"⟩ (fun _ => 0) 17 (le_refl 17)).2.1
     not_reachable_sample⟩

/-- C3: `stateTransition` moves the boat load from the departure bank to the other
bank and flips the boat, for boat "left" and for boat "right"; `ok` is `valid` of
the state it returns, which is returned whatever `ok` is; and the step from the
initial state with operator (0,2) gives ((3,1),(0,2),right) with `ok = true`. -/
theorem stateTransition_spec (s : State) (op : Operator) :
    (s.boat = "left" → (stateTransition s op).1 =
      { left := ⟨s.left.m - op.m, s.left.c - op.c⟩,
        right := ⟨s.right.m + op.m, s.right.c + op.c⟩, boat := "right" }) ∧
    (s.boat = "right" → (stateTransition s op).1 =
      { left := ⟨s.left.m + op.m, s.left.c + op.c⟩,
        right := ⟨s.right.m - op.m, s.right.c - op.c⟩, boat := "left" }) ∧
    (stateTransition s op).2 = valid (stateTransition s op).1 ∧
    stateTransition ⟨⟨3, 3⟩, ⟨0, 0⟩, "left"⟩ ⟨0, 2⟩ = (⟨⟨3, 1⟩, ⟨0, 2⟩, "right"⟩, true) := by
  refine ⟨?_, ?_, rfl, by decide⟩
  · intro h
    simp [stateTransition, h]
  · intro h
    simp [stateTransition, h]

/-- C4: `valid s` is true exactly when the four counts are non-negative and on each
bank either there is no missionary or the cannibals do not outnumber the
missionaries; with the two sample states of the specification. -/
theorem valid_iff (s : State) :
    (valid s = true ↔
      (0 ≤ s.left.m ∧ 0 ≤ s.left.c ∧ 0 ≤ s.right.m ∧ 0 ≤ s.right.c) ∧
      (s.left.m = 0 ∨ s.left.c ≤ s.left.m) ∧ (s.right.m = 0 ∨ s.right.c ≤ s.right.m)) ∧
    valid ⟨⟨1, 2⟩, ⟨2, 1⟩, "left"⟩ = false ∧ valid ⟨⟨0, 2⟩, ⟨3, 1⟩, "left"⟩ = true := by
  refine ⟨?_, by decide, by decide⟩
  unfold valid
  constructor
  · intro h
    split at h
    · cases h
    · split at h
      · cases h
      · split at h
        · cases h
        · omega
  · intro h
    rw [if_neg (by omega), if_neg (by omega), if_neg (by omega)]

/-- C5, as the code behaves: from the initial state the operator (2,0) gives the
configuration ((1,3),(2,0),right) with `ok = false`, since one missionary would
stay with three cannibals on the left bank. -/
theorem stateTransition_two_missionaries :
    stateTransition ⟨⟨3, 3⟩, ⟨0, 0⟩, "left"⟩ ⟨2, 0⟩ = (⟨⟨1, 3⟩, ⟨2, 0⟩, "right"⟩, false) := by
  decide

/-- C5, refuted as stated: the step from the initial state with operator (2,0) does
not return `ok = true`. -/
theorem stateTransition_two_missionaries_not_ok :
    stateTransition ⟨⟨3, 3⟩, ⟨0, 0⟩, "left"⟩ ⟨2, 0⟩ ≠ (⟨⟨1, 3⟩, ⟨2, 0⟩, "right"⟩, true) := by
  decide

/-- C6: at every point of a run from `[initialState]`, the configurations passed to
`insert` so far are pairwise distinct and do not include the initial state, the
frontier has no repeated entry, and every frontier entry is in the visited map. -/
theorem frontier_no_duplicates (rng : Nat → Nat) (st : Search)
    (h : atPoint goalState rng [initialState] st) :
    st.inserted.Nodup ∧ initialState ∉ st.inserted ∧ st.q.Nodup ∧
    ∀ x ∈ st.q, historyGet st.history x = true := by
  have hinv := atPoint_inv h
  have hn := hinv.hist_nodup
  rw [hinv.hist_eq, List.nodup_append] at hn
  refine ⟨hn.1, fun hm => hn.2.2 hm (List.mem_singleton_self _), hinv.q_nodup, ?_⟩
  intro x hx
  simpa [historyGet] using hinv.q_sub x hx

theorem frontier_no_duplicates_witness :
    firstPass.inserted.Nodup ∧ initialState ∉ firstPass.inserted ∧ firstPass.q.Nodup ∧
    ∀ x ∈ firstPass.q, historyGet firstPass.history x = true :=
  frontier_no_duplicates (fun _ => 0) firstPass (Or.inl ⟨1, loopHead_firstPass⟩)

/-- C7: whenever `stateTransition` returns `ok = true` the returned configuration is
valid, and at every point of a run from `[initialState]` every configuration in
the frontier is valid. -/
theorem frontier_valid (rng : Nat → Nat) (st : Search)
    (h : atPoint goalState rng [initialState] st) :
    (∀ s op, (stateTransition s op).2 = true → valid (stateTransition s op).1 = true) ∧
    ∀ x ∈ st.q, valid x = true := by
  have hinv := atPoint_inv h
  exact ⟨fun _ _ hok => hok, fun x hx => reachable_valid (hinv.hist_reach x (hinv.q_sub x hx))⟩

theorem frontier_valid_witness :
    (∀ s op, (stateTransition s op).2 = true → valid (stateTransition s op).1 = true) ∧
    ∀ x ∈ firstPass.q, valid x = true :=
  frontier_valid (fun _ => 0) firstPass (Or.inl ⟨1, loopHead_firstPass⟩)

/-- C8: every step of `stateTransition`, legal or not, keeps the total number of
missionaries and of cannibals; every reachable configuration has totals 3 and 3;
and so has every configuration in the frontier or the visited map at every point
of a run from `[initialState]`. -/
theorem totals_conserved (rng : Nat → Nat) (st : Search)
    (h : atPoint goalState rng [initialState] st) :
    (∀ s op,
      (stateTransition s op).1.left.m + (stateTransition s op).1.right.m
        = s.left.m + s.right.m ∧
      (stateTransition s op).1.left.c + (stateTransition s op).1.right.c
        = s.left.c + s.right.c) ∧
    (∀ x, Reachable x → x.left.m + x.right.m = 3 ∧ x.left.c + x.right.c = 3) ∧
    (∀ x, x ∈ st.q ∨ x ∈ st.history → x.left.m + x.right.m = 3 ∧ x.left.c + x.right.c = 3) := by
  have hinv := atPoint_inv h
  refine ⟨stateTransition_totals, fun x hx => reachable_totals hx, ?_⟩
  intro x hx
  rcases hx with hx | hx
  · exact reachable_totals (hinv.hist_reach x (hinv.q_sub x hx))
  · exact reachable_totals (hinv.hist_reach x hx)

theorem totals_conserved_witness :
    atPoint goalState (fun _ => 0) [initialState] firstPass ∧
    ∀ x, x ∈ firstPass.q ∨ x ∈ firstPass.history →
      x.left.m + x.right.m = 3 ∧ x.left.c + x.right.c = 3 :=
  ⟨Or.inl ⟨1, loopHead_firstPass⟩,
   (totals_conserved (fun _ => 0) firstPass (Or.inl ⟨1, loopHead_firstPass⟩)).2.2⟩

/-- C9: for every goal and every stream of draws the loop started from
`[initialState]` returns within 17 passes: it is left before an 18th pass could
start, no configuration is dequeued twice, and every dequeued configuration is
one of the sixteen valid configurations reachable with the initial totals. -/
theorem search_terminates (goal : State) (rng : Nat → Nat) (fuel : Nat) (hf : 17 ≤ fuel) :
    (∃ b, nonDeterminismWith goal rng fuel [initialState] = some b) ∧
    loopHead goal rng [initialState] 17 = none ∧
    (∀ n m a b, n < m → dequeuedAt goal rng [initialState] n = some a →
      dequeuedAt goal rng [initialState] m = some b → a ≠ b) ∧
    (∀ n a, dequeuedAt goal rng [initialState] n = some a → a ∈ reachList) := by
  refine ⟨?_, loopHead_none_17 goal rng, ?_, ?_⟩
  · obtain ⟨b, hb, _⟩ := nonDeterminismWith_spec goal rng fuel hf
    exact ⟨b, hb⟩
  · intro n m a b hnm ha hb
    exact dequeued_distinct hnm ha hb
  · intro n a ha
    simp only [dequeuedAt] at ha
    cases hl : loopHead goal rng [initialState] n with
    | none => rw [hl] at ha; cases ha
    | some st =>
      rw [hl] at ha
      have hinv := (loopHead_inv goal rng n st hl).1
      exact reachable_mem_reachList
        (hinv.hist_reach a (hinv.q_sub a (List.mem_of_mem_head? ha)))

theorem search_terminates_witness :
    ∃ b, nonDeterminismWith goalState (fun k => k) 17 [initialState] = some b :=
  (search_terminates goalState (fun k => k) 17 (le_refl 17)).1

/-- C10: for an index `i` with `0 ≤ i ≤ len(q)`, `insert(i, s)` leaves the frontier
equal to `q[0..i)`, then `s`, then `q[i..)`: `s` is at index `i`, earlier entries
keep their index, later entries move up by one; index 0 prepends and index
`len(q)` appends. -/
theorem insert_at_index (q : List State) (s : State) (i : Int) (h0 : 0 ≤ i)
    (h1 : i ≤ q.length) :
    insert i s q = q.take i.toNat ++ s :: q.drop i.toNat ∧
    (insert i s q)[i.toNat]? = some s ∧
    (∀ k, k < i.toNat → (insert i s q)[k]? = q[k]?) ∧
    (∀ k, i.toNat ≤ k → (insert i s q)[k + 1]? = q[k]?) ∧
    (i = 0 → insert i s q = s :: q) ∧
    (i = q.length → insert i s q = q ++ [s]) := by
  have hn : i.toNat ≤ q.length := by omega
  rw [insert_eq]
  refine ⟨rfl, ?_, ?_, ?_, ?_, ?_⟩
  · rw [List.getElem?_append_right (by simp [hn])]
    simp [hn]
  · intro k hk
    rw [List.getElem?_append_left (by simp; omega)]
    simp [List.getElem?_take, hk]
  · intro k hk
    rw [List.getElem?_append_right (by simp; omega)]
    have e : k + 1 - (q.take i.toNat).length = (k - i.toNat) + 1 := by simp; omega
    rw [e]
    simp
    congr 1
    omega
  · intro hi
    subst hi
    simp
  · intro hi
    subst hi
    simp

theorem insert_at_index_witness :
    insert 1 goalState [initialState, ⟨⟨3, 1⟩, ⟨0, 2⟩, "right"⟩]
      = [initialState, goalState, ⟨⟨3, 1⟩, ⟨0, 2⟩, "right"⟩] :=
  (insert_at_index [initialState, ⟨⟨3, 1⟩, ⟨0, 2⟩, "right"⟩] goalState 1 (by decide)
    (by decide)).1


/-! ## Counting the insertions of one pass -/

theorem stateTransition_injective (s : State) (a b : Operator)
    (h : (stateTransition s a).1 = (stateTransition s b).1) : a = b := by
  obtain ⟨am, ac⟩ := a
  obtain ⟨bm, bc⟩ := b
  simp only [stateTransition] at h
  by_cases hb : s.boat = "left"
  · simp only [hb, if_true, State.mk.injEq, RiverSide.mk.injEq] at h
    obtain ⟨⟨h1, h2⟩, _⟩ := h
    have e1 : am = bm := by omega
    have e2 : ac = bc := by omega
    rw [e1, e2]
  · simp only [hb, if_false, State.mk.injEq, RiverSide.mk.injEq] at h
    obtain ⟨⟨h1, h2⟩, _⟩ := h
    have e1 : am = bm := by omega
    have e2 : ac = bc := by omega
    rw [e1, e2]

theorem foldl_length (rng : Nat → Nat) (s : State) (ops : List Operator) :
    ∀ st : Search, ops.Nodup →
      (ops.foldl (expandStep rng s) st).q.length =
        st.q.length + (ops.filter (fun op =>
          (stateTransition s op).2 && !(historyGet st.history (stateTransition s op).1))).length := by
  induction ops with
  | nil => intro st _; simp
  | cons a ops ih =>
    intro st hnd
    obtain ⟨ha, hnd'⟩ := List.nodup_cons.1 hnd
    rw [List.foldl_cons]
    rcases expandStep_cases rng s st a with ⟨e, hm⟩ | ⟨hok, hnew, e⟩
    · rw [e, ih st hnd']
      have hp : ((stateTransition s a).2 &&
          !(historyGet st.history (stateTransition s a).1)) = false := by
        cases hok : (stateTransition s a).2 with
        | false => rfl
        | true => simp [historyGet, hm hok]
      rw [List.filter_cons_of_neg (by simp [hp])]
    · rw [ih _ hnd', e]
      have hp : ((stateTransition s a).2 &&
          !(historyGet st.history (stateTransition s a).1)) = true := by
        simp [historyGet, hok, hnew]
      rw [List.filter_cons_of_pos (by exact hp)]
      have hcongr : ops.filter (fun op => (stateTransition s op).2 &&
            !(historyGet ((stateTransition s a).1 :: st.history) (stateTransition s op).1)) =
          ops.filter (fun op => (stateTransition s op).2 &&
            !(historyGet st.history (stateTransition s op).1)) := by
        apply List.filter_congr
        intro op hop
        have hne : (stateTransition s op).1 ≠ (stateTransition s a).1 := by
          intro heq
          exact ha (stateTransition_injective s op a heq ▸ hop)
        simp [historyGet, hne]
      simp only [hcongr, length_insert, List.length_cons]
      omega

/-! ## Shortest solutions -/

theorem mem_layerStep (l : List State) (x : State) :
    x ∈ layerStep l ↔
      ∃ s ∈ l, ∃ op ∈ Operators, (stateTransition s op).2 = true ∧
        (stateTransition s op).1 = x := by
  simp only [layerStep, List.mem_dedup, List.mem_flatMap, List.mem_filterMap]
  constructor
  · rintro ⟨s, hs, op, hop, h⟩
    split at h
    · next hok =>
      injection h with h
      exact ⟨s, hs, op, hop, hok, h⟩
    · cases h
  · rintro ⟨s, hs, op, hop, hok, h⟩
    exact ⟨s, hs, op, hop, by simp [hok, h]⟩

theorem chain_layer (g : State) (ops : List Operator) :
    ∀ (s : State) (k : Nat), s ∈ layer k → (∀ op ∈ ops, op ∈ Operators) →
      chain s ops = some g → g ∈ layer (k + ops.length) := by
  induction ops with
  | nil =>
    intro s k hs _ hc
    simp only [chain] at hc
    injection hc with hc
    simpa [← hc] using hs
  | cons a ops ih =>
    intro s k hs hops hc
    simp only [chain] at hc
    split at hc
    · next hok =>
      have hnext : (stateTransition s a).1 ∈ layer (k + 1) := by
        simp only [layer]
        exact (mem_layerStep _ _).2 ⟨s, hs, a, hops a (List.mem_cons_self _ _), hok, rfl⟩
      have := ih _ (k + 1) hnext (fun op h => hops op (List.mem_cons_of_mem _ h)) hc
      simpa [Nat.add_assoc, Nat.add_comm 1] using this
    · cases hc

theorem goal_not_in_layer : ∀ k, k < 11 → goalState ∉ layer k := by
  decide

theorem chain_goal_length (ops : List Operator) (hops : ∀ op ∈ ops, op ∈ Operators)
    (hc : chain initialState ops = some goalState) : 11 ≤ ops.length := by
  by_contra hlt
  have hmem := chain_layer goalState ops initialState 0 (by simp [layer]) hops hc
  rw [Nat.zero_add] at hmem
  exact goal_not_in_layer ops.length (by omega) hmem

theorem reachWithin_mono {n m : Nat} {x : State} (hnm : n ≤ m) (h : ReachWithin n x) :
    ReachWithin m x := by
  obtain ⟨ops, hl, hops, hc⟩ := h
  exact ⟨ops, by omega, hops, hc⟩

theorem reachWithin_step {n : Nat} {s : State} (hs : ReachWithin n s) {op : Operator}
    (hop : op ∈ Operators) (hok : (stateTransition s op).2 = true) :
    ReachWithin (n + 1) (stateTransition s op).1 := by
  obtain ⟨ops, hl, hops, hc⟩ := hs
  refine ⟨ops ++ [op], by simp; omega, ?_, ?_⟩
  · intro o ho
    rcases List.mem_append.1 ho with h | h
    · exact hops o h
    · simp at h
      exact h ▸ hop
  · rw [chain_append, hc]
    simp [chain, hok]

theorem depth_foldl (rng : Nat → Nat) {n : Nat} {s : State} (hs : ReachWithin n s)
    (ops : List Operator) (hops : ∀ op ∈ ops, op ∈ Operators) :
    ∀ st : Search, (∀ x ∈ st.history, ReachWithin (n + 1) x) →
      ∀ x ∈ (ops.foldl (expandStep rng s) st).history, ReachWithin (n + 1) x := by
  induction ops with
  | nil => intro st h; exact h
  | cons a ops ih =>
    intro st h
    rw [List.foldl_cons]
    apply ih (fun op ho => hops op (List.mem_cons_of_mem _ ho))
    rcases expandStep_cases rng s st a with ⟨e, _⟩ | ⟨hok, _, e⟩
    · rw [e]; exact h
    · rw [e]
      intro x hx
      rcases List.mem_cons.1 hx with hx | hx
      · exact hx ▸ reachWithin_step hs (hops a (List.mem_cons_self _ _)) hok
      · exact h x hx

theorem depth_iteration {goal : State} {rng : Nat → Nat} {n : Nat} {st st' : Search}
    (hinv : Inv st) (hd : ∀ x ∈ st.history, ReachWithin n x)
    (hit : iteration goal rng st = Step.next st') :
    ∀ x ∈ st'.history, ReachWithin (n + 1) x := by
  obtain ⟨s, rest, hq, _, rfl⟩ := (iteration_next_iff goal rng st st').1 hit
  have hs : ReachWithin n s := hd s (hinv.q_sub s (hq ▸ List.mem_cons_self _ _))
  exact depth_foldl rng hs Operators (fun _ h => h) _
    (fun x hx => reachWithin_mono (Nat.le_succ n) (hd x hx))

theorem depth_start : ∀ x ∈ (startSearch [initialState]).history, ReachWithin 0 x := by
  intro x hx
  simp only [startSearch, List.mem_singleton] at hx
  exact hx ▸ ⟨[], by simp, by simp, rfl⟩

theorem reachWithin_goal {n : Nat} (h : ReachWithin n goalState) : 11 ≤ n := by
  obtain ⟨ops, hl, hops, hc⟩ := h
  have := chain_goal_length ops hops hc
  omega

theorem searchLoop_depth (rng : Nat → Nat) (fuel : Nat) :
    ∀ (n : Nat) (st : Search), Inv st → (∀ x ∈ st.history, ReachWithin n x) →
      searchLoop goalState rng fuel st = some true → 12 ≤ n + fuel := by
  induction fuel with
  | zero =>
    intro n st _ _ h
    simp [searchLoop] at h
  | succ fuel ih =>
    intro n st hinv hd h
    simp only [searchLoop] at h
    cases hq : st.q with
    | nil =>
      rw [iteration_nil goalState rng st hq] at h
      simp at h
    | cons s rest =>
      by_cases hs : s = goalState
      · subst hs
        have := reachWithin_goal (hd _ (hinv.q_sub _ (hq ▸ List.mem_cons_self _ _)))
        omega
      · have hit := iteration_expand goalState rng st s rest hq hs
        rw [hit] at h
        have := ih (n + 1) _ (inv_iteration hinv hit) (depth_iteration hinv hd hit) h
        omega

theorem loopHead_depth (goal : State) (rng : Nat → Nat) (n : Nat) :
    ∀ st, loopHead goal rng [initialState] n = some st →
      ∀ x ∈ st.history, ReachWithin n x := by
  induction n with
  | zero =>
    intro st h
    simp only [loopHead] at h
    injection h with h
    subst h
    exact depth_start
  | succ n ih =>
    intro st' h
    obtain ⟨st, hl, hit⟩ := loopHead_succ h
    exact depth_iteration (loopHead_inv goal rng n st hl).1 (ih st hl) hit

theorem loopHead_deadEnd : loopHead goalState deadEndDraws [initialState] 2 = some deadEnd :=
  rfl

/-! ## Further claims -/

/-- C13: the eleven catalog operators (0,2), (0,1), (0,2), (0,1), (2,0), (1,1), (2,0),
(0,1), (0,2), (0,1), (0,2), applied in turn from the initial state, all return
`ok = true` and end in the goal state. -/
theorem solution_reaches_goal :
    solution.length = 11 ∧ (∀ op ∈ solution, op ∈ Operators) ∧
    chain ⟨⟨3, 3⟩, ⟨0, 0⟩, "left"⟩ solution = some ⟨⟨0, 0⟩, ⟨3, 3⟩, "right"⟩ := by
  decide

/-! ## Machine integers -/

theorem wrap64_eq (x : Int) (h1 : -9223372036854775808 ≤ x) (h2 : x < 9223372036854775808) :
    wrap64 x = x := by
  unfold wrap64
  omega

theorem wrap64_neg (x : Int) (h1 : -9223372036854775808 ≤ x) (h2 : x < 0) :
    wrap64 x < 0 := by
  rw [wrap64_eq x h1 (by omega)]
  exact h2

/-- On counts far from the word bounds the unbounded transition function and the
64-bit one return the same pair. -/
theorem stateTransition64_eq (s : State) (op : Operator) (h : smallCounts s op) :
    stateTransition64 s op = stateTransition s op := by
  obtain ⟨h1, h2, h3, h4, h5, h6⟩ := h
  unfold stateTransition64 stateTransition
  rw [wrap64_eq (s.right.m + op.m) (by omega) (by omega),
    wrap64_eq (s.right.c + op.c) (by omega) (by omega),
    wrap64_eq (s.left.m - op.m) (by omega) (by omega),
    wrap64_eq (s.left.c - op.c) (by omega) (by omega),
    wrap64_eq (s.left.m + op.m) (by omega) (by omega),
    wrap64_eq (s.left.c + op.c) (by omega) (by omega),
    wrap64_eq (s.right.m - op.m) (by omega) (by omega),
    wrap64_eq (s.right.c - op.c) (by omega) (by omega)]

theorem reachList_smallCounts : ∀ s ∈ reachList, ∀ op ∈ Operators, smallCounts s op := by
  unfold smallCounts
  decide

/-- At every configuration a run can hold and every catalog operator, the unbounded
transition function is the 64-bit one. -/
theorem stateTransition64_eq_of_reachable {s : State} (hs : Reachable s) {op : Operator}
    (hop : op ∈ Operators) : stateTransition64 s op = stateTransition s op :=
  stateTransition64_eq s op (reachList_smallCounts s (reachable_mem_reachList hs) op hop)

/-- C14, as the code behaves: when the boat is on the left or on the right and the
operator asks for more missionaries (or more cannibals) than the departure bank
holds, and that subtraction does not wrap around the 64-bit range, then
`stateTransition` returns `ok = false`; and where the two transition functions
agree, the expansion loop leaves the search data unchanged. -/
theorem stateTransition64_overdraw (s : State) (op : Operator)
    (h : (s.boat = "left" ∧
          ((s.left.m < op.m ∧ -9223372036854775808 ≤ s.left.m - op.m) ∨
           (s.left.c < op.c ∧ -9223372036854775808 ≤ s.left.c - op.c))) ∨
         (s.boat = "right" ∧
          ((s.right.m < op.m ∧ -9223372036854775808 ≤ s.right.m - op.m) ∨
           (s.right.c < op.c ∧ -9223372036854775808 ≤ s.right.c - op.c)))) :
    (stateTransition64 s op).2 = false ∧
    (stateTransition64 s op = stateTransition s op →
      ∀ rng st, expandStep rng s st op = st) := by
  have hok : (stateTransition64 s op).2 = false := by
    rcases h with ⟨hb, h⟩ | ⟨hb, h⟩
    · simp only [stateTransition64, hb, if_true, valid]
      rw [if_pos]
      rcases h with ⟨h1, h2⟩ | ⟨h1, h2⟩
      · exact Or.inl (wrap64_neg _ h2 (by omega))
      · exact Or.inr (Or.inl (wrap64_neg _ h2 (by omega)))
    · have hne : ¬ s.boat = "left" := by rw [hb]; decide
      simp only [stateTransition64, hne, if_false, valid]
      rw [if_pos]
      rcases h with ⟨h1, h2⟩ | ⟨h1, h2⟩
      · exact Or.inr (Or.inr (Or.inl (wrap64_neg _ h2 (by omega))))
      · exact Or.inr (Or.inr (Or.inr (wrap64_neg _ h2 (by omega))))
  refine ⟨hok, ?_⟩
  intro heq rng st
  rw [heq] at hok
  simp [expandStep, hok]

theorem stateTransition64_overdraw_witness :
    (stateTransition64 ⟨⟨0, 2⟩, ⟨3, 1⟩, "left"⟩ ⟨1, 0⟩).2 = false ∧
    ∀ rng st, expandStep rng ⟨⟨0, 2⟩, ⟨3, 1⟩, "left"⟩ st ⟨1, 0⟩ = st :=
  ⟨(stateTransition64_overdraw ⟨⟨0, 2⟩, ⟨3, 1⟩, "left"⟩ ⟨1, 0⟩
      (Or.inl ⟨rfl, Or.inl ⟨by decide, by decide⟩⟩)).1,
   (stateTransition64_overdraw ⟨⟨0, 2⟩, ⟨3, 1⟩, "left"⟩ ⟨1, 0⟩
      (Or.inl ⟨rfl, Or.inl ⟨by decide, by decide⟩⟩)).2 (by decide)⟩

/-- C14, refuted as stated: with the least 64-bit count of missionaries on the left bank
and the boat on the left, the operator (1,0) asks for more missionaries than
the bank holds, the subtraction wraps around to the greatest count, and
`stateTransition` returns `ok = true`. -/
theorem stateTransition64_overdraw_wraps :
    (⟨⟨-9223372036854775808, 0⟩, ⟨0, 0⟩, "left"⟩ : State).boat = "left" ∧
    (⟨1, 0⟩ : Operator).m > (⟨⟨-9223372036854775808, 0⟩, ⟨0, 0⟩, "left"⟩ : State).left.m ∧
    stateTransition64 ⟨⟨-9223372036854775808, 0⟩, ⟨0, 0⟩, "left"⟩ ⟨1, 0⟩ =
      (⟨⟨9223372036854775807, 0⟩, ⟨1, 0⟩, "right"⟩, true) := by
  decide

/-- C15: the catalog is (2,0), (1,0), (1,1), (0,1), (0,2) in this order, it has no
repeated entry, and a pair of integers is in it exactly when both are
non-negative and their sum is 1 or 2. -/
theorem operators_catalog :
    Operators = [⟨2, 0⟩, ⟨1, 0⟩, ⟨1, 1⟩, ⟨0, 1⟩, ⟨0, 2⟩] ∧ Operators.Nodup ∧
    ∀ m c : Int, (⟨m, c⟩ : Operator) ∈ Operators ↔ 0 ≤ m ∧ 0 ≤ c ∧ 1 ≤ m + c ∧ m + c ≤ 2 := by
  refine ⟨rfl, by decide, ?_⟩
  intro m c
  constructor
  · intro h
    simp only [Operators, List.mem_cons, Operator.mk.injEq, List.mem_singleton,
      List.not_mem_nil, or_false] at h
    omega
  · rintro ⟨hm, hc, h1, h2⟩
    have hm2 : m ≤ 2 := by omega
    have hc2 : c ≤ 2 := by omega
    interval_cases m <;> interval_cases c <;> first | omega | decide

/-- C17: `stateTransition` returns boat "right" when the input boat is "left" and boat
"left" for every other input boat string; so every configuration in the
frontier or the visited map at every point of a run from `[initialState]` has
boat "left" or "right". -/
theorem boat_left_or_right (rng : Nat → Nat) (st : Search)
    (h : atPoint goalState rng [initialState] st) :
    (∀ s op, (s.boat = "left" → (stateTransition s op).1.boat = "right") ∧
      (s.boat ≠ "left" → (stateTransition s op).1.boat = "left")) ∧
    (∀ x, x ∈ st.q ∨ x ∈ st.history → x.boat = "left" ∨ x.boat = "right") := by
  have hinv := atPoint_inv h
  have hstep : ∀ (s : State) (op : Operator),
      (s.boat = "left" → (stateTransition s op).1.boat = "right") ∧
      (s.boat ≠ "left" → (stateTransition s op).1.boat = "left") := by
    intro s op
    constructor
    · intro hb
      simp [stateTransition, hb]
    · intro hb
      simp [stateTransition, hb]
  have hreach : ∀ x, Reachable x → x.boat = "left" ∨ x.boat = "right" := by
    intro x hx
    refine reachable_induct (fun y => y.boat = "left" ∨ y.boat = "right") (Or.inl rfl) ?_ hx
    intro t op _ _ _
    by_cases hb : t.boat = "left"
    · exact Or.inr ((hstep t op).1 hb)
    · exact Or.inl ((hstep t op).2 hb)
  refine ⟨hstep, ?_⟩
  intro x hx
  rcases hx with hx | hx
  · exact hreach x (hinv.hist_reach x (hinv.q_sub x hx))
  · exact hreach x (hinv.hist_reach x hx)

theorem boat_left_or_right_witness :
    atPoint goalState (fun _ => 0) [initialState] firstPass ∧
    ∀ x, x ∈ firstPass.q ∨ x ∈ firstPass.history → x.boat = "left" ∨ x.boat = "right" :=
  ⟨Or.inl ⟨1, loopHead_firstPass⟩,
   (boat_left_or_right (fun _ => 0) firstPass (Or.inl ⟨1, loopHead_firstPass⟩)).2⟩

/-- C19: when the boat is on the left or on the right, applying `stateTransition` twice
with the same operator gives back the input state in all three fields, whatever
the two `ok` flags are. -/
theorem stateTransition_twice (s : State) (op : Operator)
    (hb : s.boat = "left" ∨ s.boat = "right") :
    (stateTransition (stateTransition s op).1 op).1 = s := by
  obtain ⟨⟨lm, lc⟩, ⟨rm, rc⟩, boat⟩ := s
  simp only at hb
  have hrl : ¬ ("right" : String) = "left" := by decide
  rcases hb with hb | hb
  · subst hb
    simp [stateTransition, hrl]
  · subst hb
    simp [stateTransition, hrl]

theorem stateTransition_twice_witness :
    (stateTransition (stateTransition initialState ⟨2, 0⟩).1 ⟨2, 0⟩).1 = initialState :=
  stateTransition_twice initialState ⟨2, 0⟩ (Or.inl rfl)

/-- C20: `insert` accepts every index: a negative index puts `s` at the head, an index
above `len(q)` puts it at the tail, and for every index the result has one more
entry, holds `s` once more than `q` did, holds every other configuration as
often as `q` did, and keeps the entries of `q` in their order. -/
theorem insert_clamps (q : List State) (s : State) (i : Int) :
    (i < 0 → insert i s q = s :: q) ∧
    ((q.length : Int) < i → insert i s q = q ++ [s]) ∧
    (insert i s q).length = q.length + 1 ∧
    (insert i s q).count s = q.count s + 1 ∧
    (∀ x, x ≠ s → (insert i s q).count x = q.count x) ∧
    List.Sublist q (insert i s q) := by
  have hp := insert_perm i s q
  refine ⟨?_, ?_, length_insert i s q, ?_, ?_, ?_⟩
  · intro hi
    have e : i.toNat = 0 := by omega
    rw [insert_eq, e]
    simp
  · intro hi
    have e : q.length ≤ i.toNat := by omega
    rw [insert_eq, List.take_of_length_le e, List.drop_eq_nil_of_le e]
  · rw [hp.count_eq, List.count_cons_self]
  · intro x hx
    rw [hp.count_eq, List.count_cons_of_ne hx]
  · rw [insert_eq]
    have h1 : List.Sublist (q.take i.toNat ++ q.drop i.toNat)
        (q.take i.toNat ++ s :: q.drop i.toNat) :=
      List.Sublist.append (List.Sublist.refl _) (List.sublist_cons_self _ _)
    rwa [List.take_append_drop] at h1

/-- C11: every index handed to `insert` is `Intn(len(q) + 1)` for the frontier of that
moment and so is at most `len(q)`; every `insert` lengthens the frontier by one;
and a pass that expands the head `s` changes the frontier length by the number
of catalog operators giving a legal successor not yet visited, minus one for
the head. -/
theorem insertion_index_bounds (goal : State) (rng : Nat → Nat) (st : Search) (s : State)
    (rest : List State) (hq : st.q = s :: rest) (hs : s ≠ goal) :
    (∀ raw n, Intn raw (n + 1) ≤ n) ∧
    (∀ i x q, (insert i x q).length = q.length + 1) ∧
    (∀ st0 op, expandStep rng s st0 op = st0 ∨
      ((expandStep rng s st0 op).q =
          insert (Int.ofNat (Intn (rng st0.draws) (st0.q.length + 1)))
            (stateTransition s op).1 st0.q ∧
        Intn (rng st0.draws) (st0.q.length + 1) ≤ st0.q.length ∧
        (expandStep rng s st0 op).q.length = st0.q.length + 1)) ∧
    ∃ st', iteration goal rng st = Step.next st' ∧
      st'.q.length + 1 = st.q.length + (newSuccessors s st.history).length := by
  refine ⟨Intn_le, length_insert, ?_, ?_⟩
  · intro st0 op
    rcases expandStep_cases rng s st0 op with ⟨e, _⟩ | ⟨_, _, e⟩
    · exact Or.inl e
    · right
      rw [e]
      exact ⟨rfl, Intn_le _ _, length_insert _ _ _⟩
  · refine ⟨_, iteration_expand goal rng st s rest hq hs, ?_⟩
    rw [foldl_length rng s Operators _ (by decide), hq]
    simp only [newSuccessors, List.length_cons]
    omega

theorem insertion_index_bounds_witness :
    ∃ st', iteration goalState (fun _ => 0) (startSearch [initialState]) = Step.next st' ∧
      st'.q.length + 1 = (startSearch [initialState]).q.length +
        (newSuccessors initialState (startSearch [initialState]).history).length :=
  (insertion_index_bounds goalState (fun _ => 0) (startSearch [initialState]) initialState []
    rfl (by decide)).2.2.2

/-- C12: two configurations are equal exactly when left, right and boat all agree, so
the same banks with different boat strings are different configurations; a pass
returns `true` exactly when the head of the frontier is ((0,0),(3,3),"right");
and a visited ((2,2),(1,1),left) does not stop ((2,2),(1,1),right) from being
inserted. -/
theorem state_equality :
    (∀ s t : State, s = t ↔ s.left = t.left ∧ s.right = t.right ∧ s.boat = t.boat) ∧
    (∀ (l r : RiverSide) (b1 b2 : String), b1 ≠ b2 → (⟨l, r, b1⟩ : State) ≠ ⟨l, r, b2⟩) ∧
    (∀ rng st, iteration goalState rng st = Step.done true ↔
      ∃ rest, st.q = ⟨⟨0, 0⟩, ⟨3, 3⟩, "right"⟩ :: rest) ∧
    (∀ rng s st op, (stateTransition s op).2 = true →
      (stateTransition s op).1 ∉ st.history →
      (expandStep rng s st op).q =
          insert (Int.ofNat (Intn (rng st.draws) (st.q.length + 1)))
            (stateTransition s op).1 st.q ∧
        (expandStep rng s st op).history = (stateTransition s op).1 :: st.history) ∧
    historyGet [⟨⟨2, 2⟩, ⟨1, 1⟩, "left"⟩, initialState] ⟨⟨2, 2⟩, ⟨1, 1⟩, "right"⟩ = false ∧
    (expandStep (fun _ => 0) initialState
      { q := [], history := [⟨⟨2, 2⟩, ⟨1, 1⟩, "left"⟩, initialState], draws := 0,
        inserted := [] } ⟨1, 1⟩).q = [⟨⟨2, 2⟩, ⟨1, 1⟩, "right"⟩] := by
  refine ⟨?_, ?_, ?_, ?_, by decide, by decide⟩
  · intro s t
    constructor
    · intro h
      subst h
      exact ⟨rfl, rfl, rfl⟩
    · rintro ⟨h1, h2, h3⟩
      obtain ⟨sl, sr, sb⟩ := s
      obtain ⟨tl, tr, tb⟩ := t
      simp only at h1 h2 h3
      rw [h1, h2, h3]
  · intro l r b1 b2 hb h
    injection h with _ _ h3
    exact hb h3
  · intro rng st
    constructor
    · intro h
      cases hq : st.q with
      | nil => rw [iteration_nil goalState rng st hq] at h; cases h
      | cons s rest =>
        by_cases hs : s = goalState
        · exact ⟨rest, by rw [hs]; rfl⟩
        · rw [iteration_expand goalState rng st s rest hq hs] at h
          cases h
    · rintro ⟨rest, hq⟩
      exact iteration_goal goalState rng st rest hq
  · intro rng s st op hok hnew
    rcases expandStep_cases rng s st op with ⟨_, hm⟩ | ⟨_, _, e⟩
    · exact absurd (hm hok) hnew
    · rw [e]
      exact ⟨rfl, rfl⟩

/-- C16: in a pass on a non-goal head, an operator whose successor is illegal or
already visited leaves the search data as it is; when this holds for every
catalog operator (a dead end) the pass only removes the head, keeps the rest of
the frontier, the visited map and the draw count, and the loop goes on. -/
theorem dead_end_pass (goal : State) (rng : Nat → Nat) (st : Search) (s : State)
    (rest : List State) (hq : st.q = s :: rest) (hs : s ≠ goal)
    (hdead : ∀ op ∈ Operators,
      (stateTransition s op).2 = false ∨ (stateTransition s op).1 ∈ st.history) :
    (∀ st0 op, (stateTransition s op).2 = false ∨ (stateTransition s op).1 ∈ st0.history →
      expandStep rng s st0 op = st0) ∧
    iteration goal rng st = Step.next { st with q := rest } := by
  have hstep : ∀ (st0 : Search) (op : Operator),
      (stateTransition s op).2 = false ∨ (stateTransition s op).1 ∈ st0.history →
      expandStep rng s st0 op = st0 := by
    intro st0 op h
    rcases expandStep_cases rng s st0 op with ⟨e, _⟩ | ⟨hok, hnew, _⟩
    · exact e
    · rcases h with h | h
      · rw [hok] at h; cases h
      · exact absurd h hnew
  refine ⟨hstep, ?_⟩
  rw [iteration_expand goal rng st s rest hq hs]
  have hfold : ∀ (ops : List Operator), (∀ op ∈ ops, op ∈ Operators) →
      ops.foldl (expandStep rng s) { st with q := rest } = { st with q := rest } := by
    intro ops
    induction ops with
    | nil => intro _; rfl
    | cons a ops ih =>
      intro hops
      have e := hstep { st with q := rest } a (hdead a (hops a (List.mem_cons_self _ _)))
      rw [List.foldl_cons, e]
      exact ih (fun op h => hops op (List.mem_cons_of_mem _ h))
  rw [hfold Operators (fun _ h => h)]

theorem dead_end_pass_witness :
    loopHead goalState deadEndDraws [initialState] 2 = some deadEnd ∧
    iteration goalState deadEndDraws deadEnd =
      Step.next { deadEnd with
        q := [⟨⟨3, 2⟩, ⟨0, 1⟩, "right"⟩, ⟨⟨3, 2⟩, ⟨0, 1⟩, "left"⟩] } :=
  ⟨loopHead_deadEnd,
   (dead_end_pass goalState deadEndDraws deadEnd ⟨⟨2, 2⟩, ⟨1, 1⟩, "right"⟩
      [⟨⟨3, 2⟩, ⟨0, 1⟩, "right"⟩, ⟨⟨3, 2⟩, ⟨0, 1⟩, "left"⟩] rfl (by decide) (by decide)).2⟩

/-- C18: every sequence of catalog operators that leads from the initial state to the
goal through steps that all return `ok = true` has at least 11 operators; so a
search that returns `true` has made at least 12 passes, and the goal is never
dequeued before pass number 11 (counted from 0), that is, before the twelfth
dequeue. -/
theorem shortest_solution :
    (∀ ops : List Operator, (∀ op ∈ ops, op ∈ Operators) →
      chain ⟨⟨3, 3⟩, ⟨0, 0⟩, "left"⟩ ops = some ⟨⟨0, 0⟩, ⟨3, 3⟩, "right"⟩ →
      11 ≤ ops.length) ∧
    (∀ rng fuel, nonDeterminism rng fuel [initialState] = some true → 12 ≤ fuel) ∧
    (∀ rng n, dequeuedAt goalState rng [initialState] n = some goalState → 11 ≤ n) := by
  refine ⟨chain_goal_length, ?_, ?_⟩
  · intro rng fuel h
    have := searchLoop_depth rng fuel 0 (startSearch [initialState]) inv_start depth_start h
    omega
  · intro rng n h
    simp only [dequeuedAt] at h
    cases hl : loopHead goalState rng [initialState] n with
    | none => rw [hl] at h; cases h
    | some st =>
      rw [hl] at h
      have hinv := (loopHead_inv goalState rng n st hl).1
      exact reachWithin_goal
        (loopHead_depth goalState rng n st hl _ (hinv.q_sub _ (List.mem_of_mem_head? h)))

theorem shortest_solution_witness :
    11 ≤ solution.length ∧ 12 ≤ 17 :=
  ⟨shortest_solution.1 solution (by decide) (by decide),
   shortest_solution.2.1 (fun _ => 0) 17 (by decide)⟩

end MC
